import Mathlib

/-!
Verification of the schedule text-to-HTML pipeline of `img_text_converter.py`
(functions `process_text`, `create_schedule_html`, `update_index_html`).

The Python code is embedded shallowly: strings are `List Char`, regular
expression substitutions are translated into direct character-list scanners
that implement the exact leftmost, (non-)greedy semantics of each concrete
pattern, and the file-patching function becomes a pure transition function on
an explicit file-system state.  I/O exceptions are modelled by a fault record:
each primitive operation either completes in full or raises with no effect.
-/

set_option maxRecDepth 8000

namespace Brest

abbrev Chars := List Char

def str (s : String) : Chars := s.data

/-- ASCII approximation of Python's whitespace class (`str.strip`, `\s`);
    all inputs handled by the pipeline only use these whitespace characters. -/
def pySpace (c : Char) : Bool :=
  c = ' ' || c = '\t' || c = '\n' || c = '\r' || c = '\x0b' || c = '\x0c'

/-- Python `str.strip()`: drop leading and trailing whitespace. -/
def pyStripL (s : Chars) : Chars :=
  ((s.dropWhile pySpace).reverse.dropWhile pySpace).reverse

/-- Python `sub in s` (substring containment). -/
def hasSub (s p : Chars) : Bool :=
  match s with
  | [] => p.isEmpty
  | _ :: rest => p.isPrefixOf s || hasSub rest p

/-- Fuel-driven scanner behind `pyCount`.  One unit of fuel is spent per scan
    step and every step consumes at least one character of `s`, so `s.length`
    fuel always suffices; `pyCountF_fuel` below proves the fuel irrelevant. -/
def pyCountF (p : Chars) : Nat → Chars → Nat
  | _, [] => 0
  | 0, _ :: _ => 0
  | f + 1, c :: rest =>
    if p.isPrefixOf (c :: rest) then 1 + pyCountF p f (rest.drop (p.length - 1))
    else pyCountF p f rest

/-- Python `s.count(p)` for a fixed non-empty `p`: number of non-overlapping
    occurrences, scanning left to right. -/
def pyCount (s p : Chars) : Nat := pyCountF p s.length s

theorem pyCountF_fuel (p : Chars) :
    ∀ (f g : Nat) (s : Chars), s.length ≤ f → s.length ≤ g →
      pyCountF p f s = pyCountF p g s := by
  intro f
  induction f with
  | zero =>
    intro g s hf _
    have : s = [] := List.length_eq_zero.mp (Nat.le_zero.mp hf)
    subst this
    cases g <;> rfl
  | succ f ih =>
    intro g s hf hg
    cases s with
    | nil => cases g <;> rfl
    | cons c rest =>
      cases g with
      | zero => exact absurd hg (by simp)
      | succ g' =>
        simp only [pyCountF]
        by_cases hp : p.isPrefixOf (c :: rest)
        · rw [if_pos hp, if_pos hp]
          have h1 : (rest.drop (p.length - 1)).length ≤ f := by
            simp only [List.length_drop]
            have := Nat.le_of_succ_le_succ hf
            simp only [List.length_cons] at hf ⊢
            omega
          have h2 : (rest.drop (p.length - 1)).length ≤ g' := by
            simp only [List.length_drop]
            simp only [List.length_cons] at hg
            omega
          rw [ih g' _ h1 h2]
        · rw [if_neg hp, if_neg hp]
          have h1 : rest.length ≤ f := by
            simp only [List.length_cons] at hf
            omega
          have h2 : rest.length ≤ g' := by
            simp only [List.length_cons] at hg
            omega
          rw [ih g' _ h1 h2]

/-- Unfolding equation for `pyCount`, matching the Python scan. -/
theorem pyCount_eq (s p : Chars) :
    pyCount s p =
      match s with
      | [] => 0
      | c :: rest =>
        if p.isPrefixOf (c :: rest) then 1 + pyCount (rest.drop (p.length - 1)) p
        else pyCount rest p := by
  cases s with
  | nil => rfl
  | cons c rest =>
    show pyCountF p (rest.length + 1) (c :: rest) = _
    simp only [pyCountF]
    by_cases hp : p.isPrefixOf (c :: rest)
    · rw [if_pos hp, if_pos hp]
      have h1 : (rest.drop (p.length - 1)).length ≤ rest.length := by
        simp only [List.length_drop]; omega
      rw [pyCountF_fuel p rest.length (rest.drop (p.length - 1)).length _ h1 le_rfl]
      rfl
    · rw [if_neg hp, if_neg hp]
      rfl

/-- Bridge between the boolean test used by the scanners and the
    prefix-order relation. -/
theorem isPreOf_iff {l₁ l₂ : Chars} : l₁.isPrefixOf l₂ = true ↔ l₁ <+: l₂ :=
  List.isPrefixOf_iff_prefix

/-- Index of the first occurrence of `p` in `s`, if any. -/
def findSub (s p : Chars) : Option Nat :=
  match s with
  | [] => if p.isEmpty then some 0 else none
  | _ :: rest =>
    if p.isPrefixOf s then some 0 else (findSub rest p).map (· + 1)

/-- The literal section delimiter of `update_index_html`
    (`start_marker` = `end_marker` in the source). -/
def marker : Chars :=
  str "<!------------------------------ Insert Schedule ------------------------------>"

theorem marker_ne_nil : marker ≠ [] := by decide

theorem findSub_nil_marker : findSub [] marker = none := by decide

/-- The replacement text `f"{start_marker}\n{schedule_html}\n      {end_marker}"`. -/
def schedSection (html : Chars) : Chars :=
  marker ++ str "\n" ++ html ++ str "\n      " ++ marker

/-- Fuel-driven core of `subSched`; every replacement consumes at least two
    whole markers (160 characters), so `s.length` fuel always suffices. -/
def subSchedF (html : Chars) : Nat → Chars → Chars
  | _, [] => []
  | 0, s => s
  | f + 1, s =>
    match findSub s marker with
    | none => s
    | some i =>
      match findSub (s.drop (i + marker.length)) marker with
      | none => s
      | some j =>
        s.take i ++ schedSection html ++
          subSchedF html f ((s.drop (i + marker.length)).drop (j + marker.length))

/-- Embeds `re.sub(f"{start_marker}.*?{end_marker}", schedule_section, content, flags=re.DOTALL)`:
    repeatedly replace the region from a marker occurrence through the nearest
    following marker occurrence (non-greedy, `.` matching newlines), scanning on
    after each replacement. -/
def subSched (html : Chars) (s : Chars) : Chars := subSchedF html s.length s

/-! ## The text normalizer and tagger `process_text`

Each `re.sub` of the source becomes a fuel-driven left-to-right scanner that
implements the exact semantics of its concrete pattern (leftmost match,
greedy/non-greedy as in the pattern, scanning resuming after each match).
One unit of fuel is spent per scan position and every step consumes at least
one character, so `s.length` fuel always suffices. -/

def nl : Char := '\n'

/-- Length of the shortest prefix of `s` ending in a newline (the extent of
    a non-greedy `.*?\n`: everything before that newline is automatically
    newline-free), if a newline occurs at all. -/
def toNl : Chars → Option Nat
  | [] => none
  | c :: rest => if c = '\n' then some 1 else (toNl rest).map (· + 1)

def boil1 : Chars := str "Расписание Богослужений"

def boil2 : Chars := str "Прихода"

/-- A match of `Расписание Богослужений.*?\n|Прихода.*?\n` starting at the head
    of `s`: returns the matched length.  The alternatives are tried in pattern
    order (they can never both apply: different first characters). -/
def boilMatch (s : Chars) : Option Nat :=
  if boil1.isPrefixOf s then (toNl (s.drop boil1.length)).map (boil1.length + ·)
  else if boil2.isPrefixOf s then (toNl (s.drop boil2.length)).map (boil2.length + ·)
  else none

/-- Embeds `re.sub(r"Расписание Богослужений.*?\n|Прихода.*?\n", "", text)`. -/
def subBoilF : Nat → Chars → Chars
  | _, [] => []
  | 0, s => s
  | f + 1, c :: cs =>
    match boilMatch (c :: cs) with
    | some k => subBoilF f (cs.drop (k - 1))
    | none => c :: subBoilF f cs

def subBoil (s : Chars) : Chars := subBoilF s.length s

/-- Matches `[а-я]` under `re.IGNORECASE`: the basic Cyrillic letters а–я and А–Я
    (`ё`/`Ё` are outside the а-я range and do not match). -/
def ruLetter (c : Char) : Bool :=
  ('а' ≤ c && c ≤ 'я') || ('А' ≤ c && c ≤ 'Я')

/-- Python `\w` (word character) restricted to the alphabets this pipeline can
    see: ASCII alphanumerics, underscore, and the Cyrillic block. -/
def isWordChar (c : Char) : Bool :=
  c.isAlphanum || c = '_' || (0x400 ≤ c.toNat && c.toNat ≤ 0x4FF)

/-- A match of `(\b[а-я]+)\s*\(\s*([а-я]+)\s*\)` (IGNORECASE) at the head of
    `s`, the word-boundary `\b` being guaranteed by the caller: returns the
    replacement `\1, \2` and the matched length.  All runs are maximal: the
    character classes involved are disjoint, so greedy matching cannot
    backtrack into a shorter run. -/
def parenMatch (s : Chars) : Option (Chars × Nat) :=
  let w1 := s.takeWhile ruLetter
  if w1.isEmpty then none
  else
    let r2 := (s.drop w1.length).dropWhile pySpace
    match r2 with
    | '(' :: r3 =>
      let r4 := r3.dropWhile pySpace
      let w2 := r4.takeWhile ruLetter
      if w2.isEmpty then none
      else
        let r5 := (r4.drop w2.length).dropWhile pySpace
        match r5 with
        | ')' :: tail => some (w1 ++ str ", " ++ w2, s.length - tail.length)
        | _ => none
    | _ => none

/-- Embeds `re.sub(r"(\b[а-я]+)\s*\(\s*([а-я]+)\s*\)", r"\1, \2", text, flags=re.IGNORECASE)`.
    The boolean state records whether the previous character of the original
    text was a word character (for `\b`); a replaced region ends in `)`,
    which is not a word character. -/
def subParensF : Nat → Bool → Chars → Chars
  | _, _, [] => []
  | 0, _, s => s
  | f + 1, pw, c :: cs =>
    match (if pw then none else parenMatch (c :: cs)) with
    | some (repl, k) => repl ++ subParensF f false (cs.drop (k - 1))
    | none => c :: subParensF f (isWordChar c) cs

def subParens (s : Chars) : Chars := subParensF s.length false s

/-- Lookahead `(?!\d)`: the next character, if any, is not a digit. -/
def noDigitHead : Chars → Bool
  | [] => true
  | c :: _ => !c.isDigit

/-- One-digit-hour branch of `(\d{1,2})-(\d{2})(?!\d)`. -/
def dashMatch1 : Chars → Option (Chars × Nat)
  | a :: '-' :: c :: d :: tail =>
    if a.isDigit && c.isDigit && d.isDigit && noDigitHead tail then
      some ([a, ':', c, d, ' ', '-'], 4)
    else none
  | _ => none

/-- A match of `(\d{1,2})-(\d{2})(?!\d)` at the head of `s`: the greedy
    `\d{1,2}` tries two digits first and falls back to one. -/
def dashMatch (s : Chars) : Option (Chars × Nat) :=
  match s with
  | a :: b :: '-' :: c :: d :: tail =>
    if a.isDigit && b.isDigit && c.isDigit && d.isDigit && noDigitHead tail then
      some ([a, b, ':', c, d, ' ', '-'], 5)
    else dashMatch1 s
  | _ => dashMatch1 s

/-- Embeds `re.sub(r"(\d{1,2})-(\d{2})(?!\d)", r"\1:\2 -", text)`. -/
def subDashF : Nat → Chars → Chars
  | _, [] => []
  | 0, s => s
  | f + 1, c :: cs =>
    match dashMatch (c :: cs) with
    | some (repl, k) => repl ++ subDashF f (cs.drop (k - 1))
    | none => c :: subDashF f cs

def subDashTime (s : Chars) : Chars := subDashF s.length s

/-- A match of `(\d):(\d{2})(?!\d)` at the head of `s` (the lookbehind
    `(?<!\d)` being guaranteed by the caller). -/
def padMatch : Chars → Option (Chars × Nat)
  | a :: ':' :: c :: d :: tail =>
    if a.isDigit && c.isDigit && d.isDigit && noDigitHead tail then
      some (['0', a, ':', c, d], 4)
    else none
  | _ => none

/-- Embeds `re.sub(r"(?<!\d)(\d):(\d{2})(?!\d)", r"0\1:\2", text)`.  The boolean
    state records whether the previous character of the original text was a
    digit; a matched region ends in a digit. -/
def subPadF : Nat → Bool → Chars → Chars
  | _, _, [] => []
  | 0, _, s => s
  | f + 1, pd, c :: cs =>
    match (if pd then none else padMatch (c :: cs)) with
    | some (repl, k) => repl ++ subPadF f true (cs.drop (k - 1))
    | none => c :: subPadF f c.isDigit cs

def subPadHour (s : Chars) : Chars := subPadF s.length false s

/-- Longest whitespace-only prefix of `cs` that ends in a newline: the greedy
    `\s*` of `\n\s*\n` backtracks to the last newline inside the whitespace
    run.  Returns its length, if such a prefix exists. -/
def lastNlInWs : Chars → Option Nat
  | [] => none
  | c :: rest =>
    if pySpace c then
      match lastNlInWs rest with
      | some m => some (m + 1)
      | none => if c = '\n' then some 1 else none
    else none

/-- Embeds `re.sub(r"\n\s*\n", "\n", text)`. -/
def subBlankF : Nat → Chars → Chars
  | _, [] => []
  | 0, s => s
  | f + 1, c :: cs =>
    if c = '\n' then
      match lastNlInWs cs with
      | some k => '\n' :: subBlankF f (cs.drop k)
      | none => c :: subBlankF f cs
    else c :: subBlankF f cs

def subBlank (s : Chars) : Chars := subBlankF s.length s

/-- Embeds `re.sub(r"[ ]{2,}", " ", text)`: collapse maximal runs of two or more
    spaces to a single space. -/
def subSpacesF : Nat → Chars → Chars
  | _, [] => []
  | 0, s => s
  | f + 1, c :: cs =>
    if c = ' ' then
      match cs with
      | ' ' :: _ => ' ' :: subSpacesF f (cs.dropWhile (· == ' '))
      | _ => c :: subSpacesF f cs
    else c :: subSpacesF f cs

def subSpaces (s : Chars) : Chars := subSpacesF s.length s

/-- Lowercasing for `re.IGNORECASE` comparison over the alphabets used by the
    pattern literals (basic Cyrillic and ASCII). -/
def lowerRu (c : Char) : Char :=
  if 'А' ≤ c && c ≤ 'Я' then Char.ofNat (c.toNat + 0x20)
  else if c = 'Ё' then 'ё'
  else if 'A' ≤ c && c ≤ 'Z' then Char.ofNat (c.toNat + 0x20)
  else c

/-- Case-insensitive prefix test; the pattern is given in lowercase. -/
def ciPre : Chars → Chars → Bool
  | [], _ => true
  | _ :: _, [] => false
  | p :: ps, c :: cs => (lowerRu c == p) && ciPre ps cs

/-- The month alternatives of the heading pattern
    `Январ[ь|я]|Феврал[ь|я]|Март[а]?|Апрел[ь|я]|Ма[й|я]|Июн[ь|я]|Июл[ь|я]|Август[а]?|Сентябр[ь|я]|Октябр[ь|я]|Ноябр[ь|я]|Декабр[ь|я]`,
    fully enumerated: the classes `[ь|я]`, `[й|я]` and `[а|у]` contain the
    literal `|` character, and `[а]?` makes the suffix optional. -/
def monthVars : List Chars :=
  [str "январь", str "январ|", str "января",
   str "февраль", str "феврал|", str "февраля",
   str "марта", str "март",
   str "апрель", str "апрел|", str "апреля",
   str "май", str "ма|", str "мая",
   str "июнь", str "июн|", str "июня",
   str "июль", str "июл|", str "июля",
   str "августа", str "август",
   str "сентябрь", str "сентябр|", str "сентября",
   str "октябрь", str "октябр|", str "октября",
   str "ноябрь", str "ноябр|", str "ноября",
   str "декабрь", str "декабр|", str "декабря"]

/-- The weekday alternatives of
    `Понедельник|Вторник|Сред[а|у]|Четверг|Пятниц[а|у]|Суббот[а|у]|Воскресенье`. -/
def weekdayVars : List Chars :=
  [str "понедельник", str "вторник",
   str "среда", str "сред|", str "среду",
   str "четверг",
   str "пятница", str "пятниц|", str "пятницу",
   str "суббота", str "суббот|", str "субботу",
   str "воскресенье"]

/-- A match of `месяц\s*,\s*день_недели\s*` at the head of `s` (for
    `re.search` only existence matters, so the alternatives and the optional
    suffix are tried exhaustively). -/
def headMatchAt (s : Chars) : Bool :=
  monthVars.any fun m =>
    ciPre m s &&
      (match (s.drop m.length).dropWhile pySpace with
       | ',' :: r2 => weekdayVars.any fun w => ciPre w (r2.dropWhile pySpace)
       | _ => false)

/-- Runs `re.search` of the heading pattern: try every position, with the
    word-boundary `\b` tracked through the previous character (the month
    alternatives all start with a word character). -/
def headSearchF : Nat → Bool → Chars → Bool
  | _, _, [] => false
  | 0, _, _ => false
  | f + 1, pw, c :: cs => (!pw && headMatchAt (c :: cs)) || headSearchF f (isWordChar c) cs

def isHeadingRow (row : Chars) : Bool := headSearchF row.length false row

/-- Two-digit-hour branch of `re.match(r"\d{1,2}:\d{2}", row)`. -/
def timeStart2 : Chars → Bool
  | a :: b :: ':' :: c :: d :: _ => a.isDigit && b.isDigit && c.isDigit && d.isDigit
  | _ => false

/-- One-digit-hour branch of `re.match(r"\d{1,2}:\d{2}", row)`. -/
def timeStart1 : Chars → Bool
  | a :: ':' :: c :: d :: _ => a.isDigit && c.isDigit && d.isDigit
  | _ => false

/-- Holds when `re.match(r"\d{1,2}:\d{2}", row)` succeeds (note `re.match` anchors at the
    start only; `re.match(r"\d{1,2}:\d{2}.*", row)` succeeds iff this does). -/
def timeStart (s : Chars) : Bool := timeStart2 s || timeStart1 s

def brTag : Chars := str "<br />"

def h3open : Chars := str "<h3>"

/-- The per-line branch of the tagging loop of `process_text`, for a stripped,
    non-blank `row`: returns the emitted text and the updated
    `prev_was_h3` flag.  The final `else` arm (single `<br />`) is kept
    exactly as in the source even though its guard `re.match(...)` is the
    negation of the previous `elif`'s guard. -/
def tagRow (prev : Bool) (row : Chars) : Chars × Bool :=
  if isHeadingRow row then (h3open ++ row ++ str "</h3>\n", true)
  else if prev then (brTag ++ row ++ [nl], false)
  else if timeStart row then (brTag ++ brTag ++ row ++ [nl], false)
  else if !timeStart row then (brTag ++ brTag ++ row ++ [nl], false)
  else (brTag ++ row ++ [nl], false)

/-- The `for row in rows` loop: strip each line, skip blank ones, tag the
    rest while threading the `prev_was_h3` flag. -/
def tagLoop (prev : Bool) : List Chars → Chars
  | [] => []
  | r :: rest =>
    let row := pyStripL r
    if row.isEmpty then tagLoop prev rest
    else
      let t := tagRow prev row
      t.1 ++ tagLoop t.2 rest

/-- Python `text.split("\n")`. -/
def splitNl : Chars → List Chars
  | [] => [[]]
  | c :: cs =>
    if c = '\n' then [] :: splitNl cs
    else
      match splitNl cs with
      | r :: rs => (c :: r) :: rs
      | [] => [[c]]

/-- Embeds `re.sub(tag + r"\s*", tag, text)` for a literal `tag` (used with
    `<br />` and `<h3>`): drop the whitespace right after each tag. -/
def subTagWsF (tag : Chars) : Nat → Chars → Chars
  | _, [] => []
  | 0, s => s
  | f + 1, c :: cs =>
    if tag.isPrefixOf (c :: cs) then
      tag ++ subTagWsF tag f ((cs.drop (tag.length - 1)).dropWhile pySpace)
    else c :: subTagWsF tag f cs

def subTagWs (tag : Chars) (s : Chars) : Chars := subTagWsF tag s.length s

/-- Result of `process_text`: the source signals the empty-input failure by
    logging an error and returning the sentinel `""` from a dedicated early
    branch; that branch is the `emptyInput` constructor here, every normal
    return is `ok`.  (The enclosing `except` handler is unreachable: all
    operations in the body are total.) -/
inductive ProcResult where
  | emptyInput
  | ok (text : Chars)
deriving DecidableEq

/-- Shallow embedding of `process_text(input_text)`: empty-input guard, strip,
    the six substitutions in source order, line splitting, the tagging loop,
    and the two cosmetic tag-whitespace cleanups. -/
def process_text (input : Chars) : ProcResult :=
  if input.isEmpty || (pyStripL input).isEmpty then .emptyInput
  else
    let t1 := subBoil (pyStripL input)
    let t2 := subParens t1
    let t3 := subDashTime t2
    let t4 := subPadHour t3
    let t5 := subBlank t4
    let t6 := subSpaces t5
    let tagged := tagLoop false (splitNl (pyStripL t6))
    .ok (subTagWs h3open (subTagWs brTag tagged))

/-- C4: for every input whose whitespace-trimmed form is empty, `process_text`
    takes the dedicated fail-fast error branch (log the error and return the
    `""` sentinel without attempting any normalization) — and only then. -/
theorem C4_empty_input_signals_error (l : Chars) :
    process_text l = .emptyInput ↔ pyStripL l = [] := by
  unfold process_text
  by_cases h : l.isEmpty || (pyStripL l).isEmpty
  · rw [if_pos h]
    simp only [true_iff]
    rcases Bool.or_eq_true_iff.mp h with h1 | h1
    · have : l = [] := by
        cases l with
        | nil => rfl
        | cons c cs => exact absurd h1 (by simp [List.isEmpty])
      subst this
      rfl
    · cases hs : pyStripL l with
      | nil => rfl
      | cons c cs => rw [hs] at h1; exact absurd h1 (by simp [List.isEmpty])
  · rw [if_neg h]
    constructor
    · intro hE
      exact absurd hE (by simp)
    · intro hs
      exact absurd (by simp [hs, List.isEmpty]) h

/-- C5: the dash-range rule rewrites the isolated token `9-30` to `9:30 -`,
    and the zero-padding rule rewrites the isolated token `9:30` to `09:30`. -/
theorem C5_time_rules :
    subDashTime (str "9-30") = str "9:30 -" ∧
    subPadHour (str "9:30") = str "09:30" := by
  refine ⟨by decide, by decide⟩

/-- C8 counterexample: on the literal input (with the `...` present), the
    boilerplate line is not dropped entirely — the regex only removes from the
    phrase through the newline, so the leading `...` survives and is prepended
    to the date line; the output heading is `<h3>...Апреля, Понедельник</h3>`,
    not `<h3>Апреля, Понедельник</h3>`. -/
theorem C8_counterexample :
    process_text
        (str "...Расписание Богослужений...\nАпреля, Понедельник\n08:00 Литургия\n") =
      .ok (str "<h3>...Апреля, Понедельник</h3>\n<br />08:00 Литургия\n") ∧
    hasSub (str "<h3>...Апреля, Понедельник</h3>\n<br />08:00 Литургия\n")
        (str "<h3>Апреля, Понедельник</h3>") = false := by
  refine ⟨by decide, by decide⟩

/-- C8 (amended): with the boilerplate line exactly `Расписание Богослужений`
    (no surrounding text on that line), the round trip holds: the line is
    dropped entirely, the date line is tagged `<h3>Апреля, Понедельник</h3>`,
    and the time line is tagged `<br />08:00 Литургия` (single break,
    immediately after the heading). -/
theorem C8_amended_round_trip :
    process_text (str "Расписание Богослужений\nАпреля, Понедельник\n08:00 Литургия\n") =
      .ok (str "<h3>Апреля, Понедельник</h3>\n<br />08:00 Литургия\n") ∧
    hasSub (str "<h3>Апреля, Понедельник</h3>\n<br />08:00 Литургия\n")
        (str "<h3>Апреля, Понедельник</h3>") = true ∧
    hasSub (str "<h3>Апреля, Понедельник</h3>\n<br />08:00 Литургия\n")
        (str "<br />08:00 Литургия") = true ∧
    hasSub (str "<h3>Апреля, Понедельник</h3>\n<br />08:00 Литургия\n")
        (str "Расписание") = false := by
  refine ⟨by decide, by decide, by decide, by decide⟩

/-- C9 counterexample: the time-prefixed line `09:00 Б` immediately follows
    another time-prefixed line (so `prev_was_h3` is false), yet it is emitted
    with a double `<br /><br />` prefix, not the single `<br />` the claim
    predicts: the `if re.match(...)` branch fires first and the single-break
    `else` arm is unreachable. -/
theorem C9_counterexample :
    process_text (str "Января, Понедельник\n08:00 А\n09:00 Б") =
      .ok (str "<h3>Января, Понедельник</h3>\n<br />08:00 А\n<br /><br />09:00 Б\n") ∧
    tagRow false (str "09:00 Б") = (brTag ++ brTag ++ str "09:00 Б" ++ [nl], false) ∧
    tagRow false (str "09:00 Б") ≠ (brTag ++ str "09:00 Б" ++ [nl], false) := by
  refine ⟨by decide, by decide, by decide⟩

/-- C9 (amended): every non-heading content line that does not immediately
    follow a heading is emitted with a double `<br /><br />` prefix, whether or
    not it starts with a time token; the single-`<br />` arm of the tagging
    loop is dead code. -/
theorem C9_amended_double_break (prev : Bool) (row : Chars)
    (hprev : prev = false) (hhead : isHeadingRow row = false) :
    tagRow prev row = (brTag ++ brTag ++ row ++ [nl], false) := by
  subst hprev
  simp only [tagRow, hhead, Bool.false_eq_true, if_false, ite_false]
  by_cases ht : timeStart row
  · simp [ht]
  · simp [ht]

/-- Witness for C9 (amended) at a concrete time-prefixed row. -/
theorem C9_amended_witness :
    ((false : Bool) = false ∧ isHeadingRow (str "09:15 Акафист") = false) ∧
    tagRow false (str "09:15 Акафист") =
      (brTag ++ brTag ++ str "09:15 Акафист" ++ [nl], false) :=
  ⟨⟨rfl, by decide⟩,
    C9_amended_double_break false (str "09:15 Акафист") rfl (by decide)⟩

/-! ## The schedule HTML builder `create_schedule_html` -/

def h3close : Chars := str "</h3>"

/-- Length of the shortest gap after `<h3>` such that `</h3>` follows
    (the non-greedy `(.*?)` of `re.split(r"<h3>(.*?)</h3>", ...)`; without
    `re.DOTALL` the gap may not contain a newline). -/
def h3GapLen : Chars → Option Nat
  | [] => none
  | c :: cs =>
    if h3close.isPrefixOf (c :: cs) then some 0
    else if c = '\n' then none
    else (h3GapLen cs).map (· + 1)

/-- Position and group length of the first match of `<h3>(.*?)</h3>` in `s`. -/
def findH3 : Chars → Option (Nat × Nat)
  | [] => none
  | c :: cs =>
    if h3open.isPrefixOf (c :: cs) then
      match h3GapLen ((c :: cs).drop 4) with
      | some k => some (0, k)
      | none => (findH3 cs).map (fun q => (q.1 + 1, q.2))
    else (findH3 cs).map (fun q => (q.1 + 1, q.2))

/-- Fuel-driven core of `splitH3`; every match consumes at least the 9
    characters of the two tags, so `s.length` fuel always suffices. -/
def splitH3F : Nat → Chars → List Chars
  | _, [] => [[]]
  | 0, s => [s]
  | f + 1, s =>
    match findH3 s with
    | none => [s]
    | some (i, k) =>
      s.take i :: (s.drop (i + 4)).take k :: splitH3F f (s.drop (i + 9 + k))

/-- Embeds `re.split(r"<h3>(.*?)</h3>", text)`: the pieces between matches,
    interleaved with the captured heading groups. -/
def splitH3 (s : Chars) : List Chars := splitH3F s.length s

/-- Embeds `entries = [e.strip() for e in entries if e.strip()]`. -/
def entriesOf (text : Chars) : List Chars :=
  ((splitH3 text).filter (fun e => !(pyStripL e).isEmpty)).map pyStripL

def cardA : Chars :=
  str "\n        <div class=\"col-lg-3 col-sm-6 probootstrap-animate\">\n          <div class=\"form-group\">\n            <h3>"

def cardB : Chars := str "</h3>\n            "

def cardC : Chars := str "\n          </div>\n        </div>"

/-- The `entry_html` card template. -/
def mkCard (date content : Chars) : Chars :=
  cardA ++ date ++ cardB ++ content ++ cardC

/-- The pairing loop `for i in range(0, len(entries), 2): if i + 1 < len(entries)`:
    one card per (date, content) pair, a trailing unpaired fragment is skipped. -/
def cardsOfEntries : List Chars → List Chars
  | d :: c :: rest => mkCard d c :: cardsOfEntries rest
  | _ => []

def rowHead : Chars :=
  str "\n      <!------------------------------ row ------------------------------>\n      <div class=\"row\">"

def rowTail : Chars := str "\n      </div>\n"

/-- The row container markup around the joined cards of one row. -/
def rowString (cards : List Chars) : Chars := rowHead ++ cards.flatten ++ rowTail

/-- The row-accumulation loop: `current_row` collects cards, a full row of 4
    is flushed, and a non-empty partial row is flushed at the end. -/
def rowsLoop : List Chars → List Chars → List Chars
  | cur, [] => if cur.isEmpty then [] else [rowString cur]
  | cur, c :: rest =>
    if (cur ++ [c]).length = 4 then rowString (cur ++ [c]) :: rowsLoop [] rest
    else rowsLoop (cur ++ [c]) rest

/-- Python `sep.join(rows)`. -/
def joinWith (sep : Chars) : List Chars → Chars
  | [] => []
  | [x] => x
  | x :: y :: rest => x ++ sep ++ joinWith sep (y :: rest)

/-- Shallow embedding of `create_schedule_html(text)`. -/
def create_schedule_html (text : Chars) : Chars :=
  if text.isEmpty || (pyStripL text).isEmpty then []
  else
    let entries := entriesOf text
    if entries.isEmpty then []
    else joinWith [nl] (rowsLoop [] (cardsOfEntries entries))

/-! ## Structural lemmas about the builder -/

theorem h3GapLen_bound : ∀ (l : Chars) (k : Nat), h3GapLen l = some k → k + 5 ≤ l.length := by
  intro l
  induction l with
  | nil => intro k hk; exact absurd hk (by simp [h3GapLen])
  | cons c cs ih =>
    intro k hk
    simp only [h3GapLen] at hk
    by_cases h1 : h3close.isPrefixOf (c :: cs)
    · rw [if_pos h1] at hk
      have hk0 : k = 0 := by
        have := hk.symm
        simpa using this
      subst hk0
      have hpre := (isPreOf_iff.mp h1).length_le
      have h5 : h3close.length = 5 := rfl
      rw [h5] at hpre
      omega
    · rw [if_neg h1] at hk
      by_cases h2 : c = '\n'
      · rw [if_pos h2] at hk
        exact absurd hk (by simp)
      · rw [if_neg h2] at hk
        cases hg : h3GapLen cs with
        | none => rw [hg] at hk; exact absurd hk (by simp)
        | some m =>
          rw [hg, Option.map_some'] at hk
          have hk1 : k = m + 1 := by
            have := hk.symm
            simpa using this
          subst hk1
          have := ih m hg
          simp only [List.length_cons]
          omega

theorem findH3_bound : ∀ (s : Chars) (q : Nat × Nat),
    findH3 s = some q → q.1 + 9 + q.2 ≤ s.length := by
  intro s
  induction s with
  | nil => intro q h; exact absurd h (by simp [findH3])
  | cons c cs ih =>
    intro q h
    simp only [findH3] at h
    by_cases h1 : h3open.isPrefixOf (c :: cs)
    · rw [if_pos h1] at h
      cases hg : h3GapLen ((c :: cs).drop 4) with
      | some m =>
        rw [hg] at h
        have hq : q = (0, m) := by
          have := h.symm
          simpa using this
        subst hq
        have hb := h3GapLen_bound _ m hg
        have hpre := (isPreOf_iff.mp h1).length_le
        have h4 : h3open.length = 4 := rfl
        rw [h4] at hpre
        simp only [List.length_drop] at hb
        simp only
        omega
      | none =>
        rw [hg] at h
        cases hf : findH3 cs with
        | none => rw [hf] at h; exact absurd h (by simp)
        | some q' =>
          rw [hf, Option.map_some'] at h
          have hq : q = (q'.1 + 1, q'.2) := by
            have := h.symm
            simpa using this
          subst hq
          have := ih q' hf
          simp only [List.length_cons]
          omega
    · rw [if_neg h1] at h
      cases hf : findH3 cs with
      | none => rw [hf] at h; exact absurd h (by simp)
      | some q' =>
        rw [hf, Option.map_some'] at h
        have hq : q = (q'.1 + 1, q'.2) := by
          have := h.symm
          simpa using this
        subst hq
        have := ih q' hf
        simp only [List.length_cons]
        omega

theorem splitH3F_fuel : ∀ (f g : Nat) (s : Chars), s.length ≤ f → s.length ≤ g →
    splitH3F f s = splitH3F g s := by
  intro f
  induction f with
  | zero =>
    intro g s hf _
    have : s = [] := List.length_eq_zero.mp (Nat.le_zero.mp hf)
    subst this
    cases g <;> rfl
  | succ f ih =>
    intro g s hf hg
    cases s with
    | nil => cases g <;> rfl
    | cons c cs =>
      cases g with
      | zero => exact absurd hg (by simp)
      | succ g' =>
        simp only [splitH3F]
        cases hfd : findH3 (c :: cs) with
        | none => rfl
        | some q =>
          obtain ⟨i, k⟩ := q
          have hb := findH3_bound _ _ hfd
          simp only at hb
          simp only [List.cons.injEq, true_and]
          apply ih
          · simp only [List.length_drop, List.length_cons]
            simp only [List.length_cons] at hf hb
            omega
          · simp only [List.length_drop, List.length_cons]
            simp only [List.length_cons] at hg hb
            omega

/-- Unfolding equation of `splitH3`. -/
theorem splitH3_eq (s : Chars) :
    splitH3 s =
      match findH3 s with
      | none => [s]
      | some (i, k) => s.take i :: (s.drop (i + 4)).take k :: splitH3 (s.drop (i + 9 + k)) := by
  cases s with
  | nil => rfl
  | cons c cs =>
    show splitH3F (cs.length + 1) (c :: cs) = _
    simp only [splitH3F]
    cases hfd : findH3 (c :: cs) with
    | none => rfl
    | some q =>
      obtain ⟨i, k⟩ := q
      have hb := findH3_bound _ _ hfd
      simp only at hb
      simp only [List.cons.injEq, true_and]
      apply splitH3F_fuel
      · simp only [List.length_drop, List.length_cons]
        simp only [List.length_cons] at hb
        omega
      · exact le_rfl

/-- Bounded form of: every character of every piece of the split came from the
    original text. -/
theorem splitH3_chars_le : ∀ (n : Nat) (s : Chars), s.length ≤ n →
    ∀ x ∈ splitH3 s, ∀ c ∈ x, c ∈ s := by
  intro n
  induction n with
  | zero =>
    intro s hs x hx c hc
    have : s = [] := List.length_eq_zero.mp (Nat.le_zero.mp hs)
    subst this
    simp only [splitH3, splitH3F, List.mem_singleton] at hx
    subst hx
    exact absurd hc (by simp)
  | succ n ih =>
    intro s hs x hx c hc
    rw [splitH3_eq] at hx
    cases hfd : findH3 s with
    | none =>
      rw [hfd] at hx
      simp only [List.mem_singleton] at hx
      subst hx
      exact hc
    | some q =>
      obtain ⟨i, k⟩ := q
      rw [hfd] at hx
      simp only [List.mem_cons] at hx
      have hb := findH3_bound _ _ hfd
      simp only at hb
      rcases hx with rfl | rfl | hx
      · exact List.take_subset _ _ hc
      · exact List.drop_subset _ _ (List.take_subset _ _ hc)
      · have hlen : (s.drop (i + 9 + k)).length ≤ n := by
          simp only [List.length_drop]
          omega
        exact List.drop_subset _ _ (ih _ hlen x hx c hc)

theorem splitH3_chars {s x : Chars} (hx : x ∈ splitH3 s) : ∀ c ∈ x, c ∈ s :=
  splitH3_chars_le s.length s le_rfl x hx

theorem pyStripL_nil_of_all_ws {s : Chars} (h : ∀ c ∈ s, pySpace c) : pyStripL s = [] := by
  unfold pyStripL
  rw [List.dropWhile_eq_nil_iff.mpr h]
  rfl

theorem all_ws_of_pyStripL_nil {s : Chars} (h : pyStripL s = []) : ∀ c ∈ s, pySpace c := by
  unfold pyStripL at h
  have h2 : (s.dropWhile pySpace).reverse.dropWhile pySpace = [] := by
    have := congrArg List.reverse h
    simpa using this
  have h4 : ∀ c ∈ s.dropWhile pySpace, pySpace c := by
    intro c hcmem
    exact List.dropWhile_eq_nil_iff.mp h2 c (List.mem_reverse.mpr hcmem)
  intro c hc
  rw [← List.takeWhile_append_dropWhile pySpace s] at hc
  rcases List.mem_append.mp hc with h5 | h5
  · exact List.mem_takeWhile_imp h5
  · exact h4 c h5

/-- A whitespace-only text yields no entries. -/
theorem entriesOf_nil_of_strip_nil {text : Chars} (h : pyStripL text = []) :
    entriesOf text = [] := by
  unfold entriesOf
  have hall := all_ws_of_pyStripL_nil h
  have hf : (splitH3 text).filter (fun e => !(pyStripL e).isEmpty) = [] := by
    rw [List.filter_eq_nil_iff]
    intro e he
    have he0 : pyStripL e = [] :=
      pyStripL_nil_of_all_ws (fun c hc => hall c (splitH3_chars he c hc))
    simp [he0]
  rw [hf]
  rfl

/-- Appending a single unpaired trailing fragment to an even-length fragment
    list changes nothing about the produced cards. -/
theorem cards_append : ∀ (es : List Chars) (h : Chars), es.length % 2 = 0 →
    cardsOfEntries (es ++ [h]) = cardsOfEntries es
  | [], _, _ => rfl
  | [x], _, hpar => by simp at hpar
  | d :: c :: rest, h, hpar => by
    simp only [List.cons_append, cardsOfEntries, List.cons.injEq, true_and]
    exact cards_append rest h (by simp only [List.length_cons] at hpar; omega)
termination_by es => es.length

/-- C7: if the fragment list of the capture-group split (after dropping
    whitespace-only pieces) ends with a trailing heading that has no
    following content fragment, the builder produces no card for it: the
    cards, and the whole output, are those of the list without that trailing
    fragment — it is silently dropped, not an error. -/
theorem C7_trailing_heading_dropped (text : Chars) (es : List Chars) (h : Chars)
    (hsplit : entriesOf text = es ++ [h]) (heven : es.length % 2 = 0) :
    cardsOfEntries (entriesOf text) = cardsOfEntries es ∧
    create_schedule_html text = joinWith [nl] (rowsLoop [] (cardsOfEntries es)) := by
  have hcards : cardsOfEntries (entriesOf text) = cardsOfEntries es := by
    rw [hsplit]
    exact cards_append es h heven
  refine ⟨hcards, ?_⟩
  have hne : entriesOf text ≠ [] := by
    rw [hsplit]
    intro h0
    exact absurd (List.append_eq_nil.mp h0).2 (by simp)
  have hstrip : pyStripL text ≠ [] := fun h0 => hne (entriesOf_nil_of_strip_nil h0)
  have h1 : text.isEmpty = false := by
    cases text with
    | nil => exact absurd rfl hstrip
    | cons a l => rfl
  have h2 : (pyStripL text).isEmpty = false := by
    cases hpl : pyStripL text with
    | nil => exact absurd hpl hstrip
    | cons a l => rfl
  have h3 : (entriesOf text).isEmpty = false := by
    cases hpl : entriesOf text with
    | nil => exact absurd hpl hne
    | cons a l => rfl
  unfold create_schedule_html
  simp only [h1, h2, h3, Bool.or_self, Bool.false_eq_true, if_false, ite_false]
  rw [hcards]

/-- Witness for C7: a tagged text ending in a heading with no content. -/
theorem C7_witness :
    (entriesOf (str "<h3>Января, Понедельник</h3>\n<br />x\n<h3>Последний</h3>") =
        [str "Января, Понедельник", str "<br />x"] ++ [str "Последний"] ∧
      ([str "Января, Понедельник", str "<br />x"] : List Chars).length % 2 = 0) ∧
    (cardsOfEntries
        (entriesOf (str "<h3>Января, Понедельник</h3>\n<br />x\n<h3>Последний</h3>")) =
        cardsOfEntries [str "Января, Понедельник", str "<br />x"] ∧
      create_schedule_html (str "<h3>Января, Понедельник</h3>\n<br />x\n<h3>Последний</h3>") =
        joinWith [nl] (rowsLoop [] (cardsOfEntries [str "Января, Понедельник", str "<br />x"]))) :=
  ⟨⟨by decide, by decide⟩,
    C7_trailing_heading_dropped
      (str "<h3>Января, Понедельник</h3>\n<br />x\n<h3>Последний</h3>")
      [str "Января, Понедельник", str "<br />x"] (str "Последний")
      (by decide) (by decide)⟩

/-! ## Counting `<h3>` occurrences in the builder output -/

theorem pre_of_pre_append {x y z : Chars} (h : x <+: y ++ z) (hl : x.length ≤ y.length) :
    x <+: y := by
  obtain ⟨t, ht⟩ := h
  have h1 := congrArg (List.take x.length) ht
  rw [List.take_left, List.take_append_of_le_length hl] at h1
  refine ⟨y.drop x.length, ?_⟩
  nth_rewrite 1 [h1]
  exact List.take_append_drop _ y

theorem head_eq_of_pre {x : Char} {xs b : Chars} (h : (x :: xs) <+: b) :
    b.head? = some x := by
  obtain ⟨t, ht⟩ := h
  rw [← ht]
  rfl

theorem pyCount_cons (c : Char) (rest p : Chars) :
    pyCount (c :: rest) p =
      if p.isPrefixOf (c :: rest) then 1 + pyCount (rest.drop (p.length - 1)) p
      else pyCount rest p :=
  pyCount_eq (c :: rest) p

/-- No occurrence of `p` can span the junction of `a ++ b`. -/
def SafeJun (a b p : Chars) : Prop :=
  ∀ k, 0 < k → k < p.length → ¬((p.take k) <:+ a ∧ (p.drop k) <+: b)

/-- Non-overlapping occurrence counts add over a span-free junction. -/
theorem pyCount_append (p : Chars) (_hp : p ≠ []) : ∀ (n : Nat) (a b : Chars),
    a.length ≤ n → SafeJun a b p →
    pyCount (a ++ b) p = pyCount a p + pyCount b p := by
  intro n
  induction n with
  | zero =>
    intro a b ha _
    have : a = [] := List.length_eq_zero.mp (Nat.le_zero.mp ha)
    subst this
    have h0 : pyCount [] p = 0 := rfl
    rw [List.nil_append, h0]
    omega
  | succ n ih =>
    intro a b ha hsafe
    cases a with
    | nil =>
      have h0 : pyCount [] p = 0 := rfl
      rw [List.nil_append, h0]
      omega
    | cons c a' =>
      have hsafe' : SafeJun (a'.drop (p.length - 1)) b p := by
        intro k h1 h2 ⟨hsuf, hpre⟩
        exact hsafe k h1 h2
          ⟨hsuf.trans ((List.drop_suffix _ _).trans (List.suffix_cons c a')), hpre⟩
      have hsafe'' : SafeJun a' b p := by
        intro k h1 h2 ⟨hsuf, hpre⟩
        exact hsafe k h1 h2 ⟨hsuf.trans (List.suffix_cons c a'), hpre⟩
      rw [List.cons_append]
      cases hp1 : p.isPrefixOf (c :: (a' ++ b)) with
      | true =>
        by_cases hlen : p.length ≤ (c :: a').length
        · have hp2 : p <+: (c :: a') := by
            have hx : p <+: (c :: a') ++ b := by
              rw [List.cons_append]
              exact isPreOf_iff.mp hp1
            exact pre_of_pre_append hx hlen
          have hp2' : p.isPrefixOf (c :: a') = true := isPreOf_iff.mpr hp2
          rw [pyCount_cons c (a' ++ b) p, pyCount_cons c a' p, hp1, hp2']
          simp only [if_true]
          have hd : (a' ++ b).drop (p.length - 1) = a'.drop (p.length - 1) ++ b := by
            apply List.drop_append_of_le_length
            simp only [List.length_cons] at hlen
            omega
          rw [hd]
          rw [ih (a'.drop (p.length - 1)) b ?_ hsafe']
          · omega
          · simp only [List.length_drop]
            simp only [List.length_cons] at ha
            omega
        · exfalso
          obtain ⟨t, ht⟩ := isPreOf_iff.mp hp1
          rw [← List.cons_append] at ht
          have hm : (c :: a').length < p.length := by omega
          have htake : p.take (c :: a').length = c :: a' := by
            have h1 := congrArg (List.take (c :: a').length) ht
            rw [List.take_append_of_le_length (Nat.le_of_lt hm), List.take_left] at h1
            exact h1
          have hdrop : p.drop (c :: a').length <+: b := by
            have h1 := congrArg (List.drop (c :: a').length) ht
            rw [List.drop_append_of_le_length (Nat.le_of_lt hm), List.drop_left] at h1
            exact ⟨t, h1⟩
          refine hsafe (c :: a').length (by simp) hm ⟨?_, hdrop⟩
          rw [htake]
      | false =>
        have hp2 : p.isPrefixOf (c :: a') = false := by
          cases hx : p.isPrefixOf (c :: a') with
          | false => rfl
          | true =>
            exfalso
            have : p <+: c :: (a' ++ b) := by
              rw [← List.cons_append]
              exact (isPreOf_iff.mp hx).trans (List.prefix_append _ _)
            rw [isPreOf_iff.mpr this] at hp1
            exact Bool.noConfusion hp1
        rw [pyCount_cons c (a' ++ b) p, pyCount_cons c a' p, hp1, hp2]
        simp only [Bool.false_eq_true, if_false]
        apply ih a' b ?_ hsafe''
        simp only [List.length_cons] at ha
        omega

/-- Junction safety for `<h3>` when the right side starts with a newline. -/
theorem safe_h3_right_nl {a b : Chars} (hb : b.head? = some '\n') : SafeJun a b h3open := by
  intro k hk1 hk2 ⟨_, hpre⟩
  rw [show h3open.length = 4 from rfl] at hk2
  interval_cases k
  · rw [show h3open.drop 1 = ['h', '3', '>'] from rfl] at hpre
    rw [head_eq_of_pre hpre] at hb
    exact absurd hb (by decide)
  · rw [show h3open.drop 2 = ['3', '>'] from rfl] at hpre
    rw [head_eq_of_pre hpre] at hb
    exact absurd hb (by decide)
  · rw [show h3open.drop 3 = ['>'] from rfl] at hpre
    rw [head_eq_of_pre hpre] at hb
    exact absurd hb (by decide)

/-- Junction safety for `<h3>` when no proper prefix of it ends the left side. -/
theorem safe_h3_left (a b : Chars)
    (h1 : ¬(h3open.take 1 <:+ a)) (h2 : ¬(h3open.take 2 <:+ a))
    (h3 : ¬(h3open.take 3 <:+ a)) : SafeJun a b h3open := by
  intro k hk1 hk2 ⟨hsuf, _⟩
  rw [show h3open.length = 4 from rfl] at hk2
  interval_cases k
  · exact absurd hsuf h1
  · exact absurd hsuf h2
  · exact absurd hsuf h3

/-- Junction safety for `<h3>` when the right side starts with a
    sufficiently long block that admits no proper suffix of `<h3>`. -/
theorem safe_h3_right_via (a b0 X : Chars) (hlen : 3 ≤ b0.length)
    (h1 : ¬(h3open.drop 1 <+: b0)) (h2 : ¬(h3open.drop 2 <+: b0))
    (h3 : ¬(h3open.drop 3 <+: b0)) : SafeJun a (b0 ++ X) h3open := by
  intro k hk1 hk2 ⟨_, hpre⟩
  rw [show h3open.length = 4 from rfl] at hk2
  interval_cases k
  · refine absurd (pre_of_pre_append hpre ?_) h1
    rw [show (h3open.drop 1).length = 3 from rfl]
    omega
  · refine absurd (pre_of_pre_append hpre ?_) h2
    rw [show (h3open.drop 2).length = 2 from rfl]
    omega
  · refine absurd (pre_of_pre_append hpre ?_) h3
    rw [show (h3open.drop 3).length = 1 from rfl]
    omega

theorem mkCard_head (d c : Chars) : (mkCard d c).head? = some '\n' := rfl

/-- Each card contributes exactly one `<h3>` occurrence, provided neither the
    date nor the content fragment contains `<h3>`. -/
theorem pyCount_mkCard (d c : Chars) (hd : pyCount d h3open = 0)
    (hc : pyCount c h3open = 0) : pyCount (mkCard d c) h3open = 1 := by
  have hne : h3open ≠ [] := by decide
  have hre : mkCard d c = cardA ++ (d ++ (cardB ++ (c ++ cardC))) := by
    unfold mkCard
    simp [List.append_assoc]
  rw [hre]
  rw [pyCount_append h3open hne cardA.length cardA _ le_rfl
    (safe_h3_left cardA _ (by decide) (by decide) (by decide))]
  rw [pyCount_append h3open hne d.length d _ le_rfl
    (safe_h3_right_via d cardB _ (by decide) (by decide) (by decide) (by decide))]
  rw [pyCount_append h3open hne cardB.length cardB _ le_rfl
    (safe_h3_left cardB _ (by decide) (by decide) (by decide))]
  rw [pyCount_append h3open hne c.length c _ le_rfl
    (safe_h3_right_nl (show cardC.head? = some '\n' from rfl))]
  have e1 : pyCount cardA h3open = 1 := by decide
  have e2 : pyCount cardB h3open = 0 := by decide
  have e3 : pyCount cardC h3open = 0 := by decide
  omega

/-- Counting across the concatenation of the cards of one row. -/
theorem pyCount_flatten_cards : ∀ (l : List Chars),
    (∀ x ∈ l, pyCount x h3open = 1) → (∀ x ∈ l, x.head? = some '\n') →
    pyCount l.flatten h3open = l.length := by
  intro l
  induction l with
  | nil => intro _ _; rfl
  | cons x xs ih =>
    intro h1 h2
    cases xs with
    | nil =>
      have hx : ([x] : List Chars).flatten = x := by simp
      rw [hx, h1 x (by simp)]
      rfl
    | cons y ys =>
      have hyh := h2 y (by simp)
      obtain ⟨y0, y', rfl⟩ : ∃ y0 y', y = y0 :: y' := by
        cases y with
        | nil => exact absurd hyh (by simp)
        | cons a l => exact ⟨a, l, rfl⟩
      have hy0 : y0 = '\n' := by simpa using hyh
      have hhead : ((y0 :: y') :: ys).flatten.head? = some '\n' := by
        subst hy0
        rfl
      rw [show ((x :: (y0 :: y') :: ys).flatten : Chars) =
        x ++ ((y0 :: y') :: ys).flatten from rfl]
      rw [pyCount_append h3open (by decide) x.length x _ le_rfl (safe_h3_right_nl hhead)]
      rw [h1 x (by simp), ih (fun z hz => h1 z (by simp [hz])) (fun z hz => h2 z (by simp [hz]))]
      simp only [List.length_cons]
      omega

theorem rowString_head (l : List Chars) : (rowString l).head? = some '\n' := rfl

/-- Each row block contains exactly as many `<h3>` occurrences as cards. -/
theorem pyCount_rowString (l : List Chars)
    (h1 : ∀ x ∈ l, pyCount x h3open = 1) (h2 : ∀ x ∈ l, x.head? = some '\n') :
    pyCount (rowString l) h3open = l.length := by
  unfold rowString
  rw [List.append_assoc]
  rw [pyCount_append h3open (by decide) rowHead.length rowHead _ le_rfl
    (safe_h3_left rowHead _ (by decide) (by decide) (by decide))]
  rw [pyCount_append h3open (by decide) l.flatten.length l.flatten _ le_rfl
    (safe_h3_right_nl (show rowTail.head? = some '\n' from rfl))]
  rw [pyCount_flatten_cards l h1 h2]
  have e1 : pyCount rowHead h3open = 0 := by decide
  have e2 : pyCount rowTail h3open = 0 := by decide
  omega

/-- Counting across the newline-joined row blocks. -/
theorem pyCount_joinWith : ∀ (rows : List Chars),
    (∀ r ∈ rows, r.head? = some '\n') →
    pyCount (joinWith [nl] rows) h3open = (rows.map (fun r => pyCount r h3open)).sum := by
  intro rows
  induction rows with
  | nil => intro _; rfl
  | cons x xs ih =>
    intro h
    cases xs with
    | nil => simp [joinWith]
    | cons y ys =>
      have hJ : joinWith [nl] (x :: y :: ys) = x ++ ([nl] ++ joinWith [nl] (y :: ys)) := by
        simp [joinWith, List.append_assoc]
      rw [hJ]
      have hhead : ([nl] ++ joinWith [nl] (y :: ys)).head? = some '\n' := rfl
      rw [pyCount_append h3open (by decide) x.length x _ le_rfl (safe_h3_right_nl hhead)]
      rw [pyCount_append h3open (by decide) 1 [nl] _ (by simp)
        (safe_h3_left [nl] _ (by decide) (by decide) (by decide))]
      rw [ih (fun r hr => h r (by simp [hr]))]
      have e0 : pyCount [nl] h3open = 0 := by decide
      simp only [List.map_cons, List.sum_cons]
      omega

/-! ## The row-grouping loop as chunks of four -/

/-- The grouping of the card stream that `rowsLoop` performs, without the
    rendering: consecutive groups of four with a final partial group. -/
def chunkAux : List Chars → List Chars → List (List Chars)
  | cur, [] => if cur.isEmpty then [] else [cur]
  | cur, c :: rest =>
    if (cur ++ [c]).length = 4 then (cur ++ [c]) :: chunkAux [] rest
    else chunkAux (cur ++ [c]) rest

theorem rowsLoop_eq_chunk : ∀ (cards cur : List Chars),
    rowsLoop cur cards = (chunkAux cur cards).map rowString := by
  intro cards
  induction cards with
  | nil =>
    intro cur
    simp only [rowsLoop, chunkAux]
    by_cases h : cur.isEmpty
    · rw [if_pos h, if_pos h]
      rfl
    · rw [if_neg h, if_neg h]
      rfl
  | cons c rest ih =>
    intro cur
    simp only [rowsLoop, chunkAux]
    by_cases h : (cur ++ [c]).length = 4
    · rw [if_pos h, if_pos h]
      simp [ih]
    · rw [if_neg h, if_neg h]
      exact ih (cur ++ [c])

theorem chunkAux_flatten : ∀ (cards cur : List Chars),
    (chunkAux cur cards).flatten = cur ++ cards := by
  intro cards
  induction cards with
  | nil =>
    intro cur
    simp only [chunkAux]
    by_cases h : cur.isEmpty
    · rw [if_pos h]
      have : cur = [] := List.isEmpty_iff.mp h
      simp [this]
    · rw [if_neg h]
      simp
  | cons c rest ih =>
    intro cur
    simp only [chunkAux]
    by_cases h : (cur ++ [c]).length = 4
    · rw [if_pos h]
      simp [ih []]
    · rw [if_neg h]
      rw [ih (cur ++ [c])]
      simp

theorem chunkAux_sizes : ∀ (cards cur : List Chars), cur.length ≤ 3 →
    ∀ r ∈ chunkAux cur cards, r ≠ [] ∧ r.length ≤ 4 := by
  intro cards
  induction cards with
  | nil =>
    intro cur hcur r hr
    simp only [chunkAux] at hr
    by_cases h : cur.isEmpty
    · rw [if_pos h] at hr
      exact absurd hr (by simp)
    · rw [if_neg h] at hr
      simp only [List.mem_singleton] at hr
      subst hr
      refine ⟨fun h0 => ?_, by omega⟩
      rw [h0] at h
      exact h rfl
  | cons c rest ih =>
    intro cur hcur r hr
    simp only [chunkAux] at hr
    by_cases h : (cur ++ [c]).length = 4
    · rw [if_pos h] at hr
      rcases List.mem_cons.mp hr with rfl | hr'
      · refine ⟨fun h0 => ?_, by omega⟩
        rw [h0] at h
        simp at h
      · exact ih [] (by simp) r hr'
    · rw [if_neg h] at hr
      refine ih (cur ++ [c]) ?_ r hr
      simp only [List.length_append, List.length_cons, List.length_nil] at h ⊢
      omega

theorem chunkAux_count : ∀ (cards cur : List Chars), cur.length ≤ 3 →
    (chunkAux cur cards).length = (cur.length + cards.length + 3) / 4 := by
  intro cards
  induction cards with
  | nil =>
    intro cur hcur
    simp only [chunkAux]
    by_cases h : cur.isEmpty
    · rw [if_pos h]
      have : cur = [] := List.isEmpty_iff.mp h
      simp [this]
    · rw [if_neg h]
      have h1 : 1 ≤ cur.length := by
        cases cur with
        | nil => simp at h
        | cons a l => simp
      simp only [List.length_cons, List.length_nil]
      omega
  | cons c rest ih =>
    intro cur hcur
    simp only [chunkAux]
    by_cases h : (cur ++ [c]).length = 4
    · rw [if_pos h]
      simp only [List.length_cons]
      rw [ih [] (by simp)]
      simp only [List.length_append, List.length_cons, List.length_nil] at h
      simp only [List.length_nil]
      omega
    · rw [if_neg h]
      rw [ih (cur ++ [c]) (by simp at h ⊢; omega)]
      simp only [List.length_append, List.length_cons, List.length_nil]
      omega

theorem cardsOfEntries_length : ∀ (es : List Chars),
    (cardsOfEntries es).length = es.length / 2
  | [] => rfl
  | [_] => by simp [cardsOfEntries]
  | d :: c :: rest => by
    simp only [cardsOfEntries, List.length_cons]
    rw [cardsOfEntries_length rest]
    omega
termination_by es => es.length

theorem cardsOfEntries_shape : ∀ (es : List Chars), ∀ x ∈ cardsOfEntries es,
    ∃ d c, x = mkCard d c ∧ d ∈ es ∧ c ∈ es
  | [] => by intro x hx; exact absurd hx (by simp [cardsOfEntries])
  | [y] => by intro x hx; exact absurd hx (by simp [cardsOfEntries])
  | d :: c :: rest => by
    intro x hx
    simp only [cardsOfEntries, List.mem_cons] at hx
    rcases hx with rfl | hx'
    · exact ⟨d, c, rfl, by simp, by simp⟩
    · obtain ⟨d', c', rfl, hd', hc'⟩ := cardsOfEntries_shape rest x hx'
      exact ⟨d', c', rfl, by simp [hd'], by simp [hc']⟩
termination_by es => es.length

/-- C6 (amended): for a tagged input with `n ≥ 1` matched heading/content
    pairs none of whose fragments contains the literal `<h3>`, the builder
    output contains exactly `n` `<h3>` occurrences; the row blocks are the
    card stream chunked in source order into groups of at most 4 (all
    non-empty, filled left to right), and there are exactly `ceil(n/4)`
    of them. -/
theorem C6_amended_builder_shape (text : Chars)
    (hn : 1 ≤ (entriesOf text).length / 2)
    (hfree : ∀ e ∈ entriesOf text, pyCount e h3open = 0) :
    pyCount (create_schedule_html text) h3open = (entriesOf text).length / 2 ∧
    rowsLoop [] (cardsOfEntries (entriesOf text)) =
      (chunkAux [] (cardsOfEntries (entriesOf text))).map rowString ∧
    (chunkAux [] (cardsOfEntries (entriesOf text))).flatten =
      cardsOfEntries (entriesOf text) ∧
    (∀ r ∈ chunkAux [] (cardsOfEntries (entriesOf text)), r ≠ [] ∧ r.length ≤ 4) ∧
    (rowsLoop [] (cardsOfEntries (entriesOf text))).length =
      ((entriesOf text).length / 2 + 3) / 4 := by
  have hcl : (cardsOfEntries (entriesOf text)).length = (entriesOf text).length / 2 :=
    cardsOfEntries_length (entriesOf text)
  have hone : ∀ x ∈ cardsOfEntries (entriesOf text), pyCount x h3open = 1 := by
    intro x hx
    obtain ⟨d, c, rfl, hd, hc⟩ := cardsOfEntries_shape (entriesOf text) x hx
    exact pyCount_mkCard d c (hfree d hd) (hfree c hc)
  have hhead : ∀ x ∈ cardsOfEntries (entriesOf text), x.head? = some '\n' := by
    intro x hx
    obtain ⟨d, c, rfl, _, _⟩ := cardsOfEntries_shape (entriesOf text) x hx
    exact mkCard_head d c
  have hflat := chunkAux_flatten (cardsOfEntries (entriesOf text)) []
  rw [List.nil_append] at hflat
  have hsizes := chunkAux_sizes (cardsOfEntries (entriesOf text)) [] (by simp)
  have hrl := rowsLoop_eq_chunk (cardsOfEntries (entriesOf text)) []
  have hcnt := chunkAux_count (cardsOfEntries (entriesOf text)) [] (by simp)
  have hmemc : ∀ r ∈ chunkAux [] (cardsOfEntries (entriesOf text)),
      ∀ x ∈ r, x ∈ cardsOfEntries (entriesOf text) := by
    intro r hr x hx
    have : x ∈ (chunkAux [] (cardsOfEntries (entriesOf text))).flatten :=
      List.mem_flatten.mpr ⟨r, hr, hx⟩
    rwa [hflat] at this
  have hrow1 : ∀ r ∈ chunkAux [] (cardsOfEntries (entriesOf text)),
      pyCount (rowString r) h3open = r.length := by
    intro r hr
    exact pyCount_rowString r (fun x hx => hone x (hmemc r hr x hx))
      (fun x hx => hhead x (hmemc r hr x hx))
  have hrowhead : ∀ r ∈ (chunkAux [] (cardsOfEntries (entriesOf text))).map rowString,
      r.head? = some '\n' := by
    intro r hr
    obtain ⟨g, _, rfl⟩ := List.mem_map.mp hr
    exact rowString_head g
  have hne : entriesOf text ≠ [] := by
    intro h0
    rw [h0] at hn
    simp at hn
  have hstrip : pyStripL text ≠ [] := fun h0 => hne (entriesOf_nil_of_strip_nil h0)
  have h1 : text.isEmpty = false := by
    cases text with
    | nil => exact absurd rfl hstrip
    | cons a l => rfl
  have h2 : (pyStripL text).isEmpty = false := by
    cases hpl : pyStripL text with
    | nil => exact absurd hpl hstrip
    | cons a l => rfl
  have h3 : (entriesOf text).isEmpty = false := by
    cases hpl : entriesOf text with
    | nil => exact absurd hpl hne
    | cons a l => rfl
  have hcreate : create_schedule_html text =
      joinWith [nl] (rowsLoop [] (cardsOfEntries (entriesOf text))) := by
    unfold create_schedule_html
    simp only [h1, h2, h3, Bool.or_self, Bool.false_eq_true, if_false, ite_false]
  have hfinal : pyCount (joinWith [nl] (rowsLoop [] (cardsOfEntries (entriesOf text))))
      h3open = (cardsOfEntries (entriesOf text)).length := by
    rw [hrl, pyCount_joinWith _ hrowhead]
    have hmm : ((chunkAux [] (cardsOfEntries (entriesOf text))).map rowString).map
        (fun r => pyCount r h3open) =
        (chunkAux [] (cardsOfEntries (entriesOf text))).map List.length := by
      rw [List.map_map]
      exact List.map_congr_left (fun r hr => hrow1 r hr)
    rw [hmm, ← List.length_flatten, hflat]
  refine ⟨?_, hrl, hflat, hsizes, ?_⟩
  · rw [hcreate, hfinal, hcl]
  · rw [hrl, List.length_map, hcnt, hcl]
    simp

/-- C6 counterexample: a tagged input with exactly one matched heading/content
    pair whose content fragment itself contains the literal `<h3>` (the
    capture-group split does not match across a newline, so the inner pair
    stays in the content): the builder output then contains two `<h3>`
    occurrences, not one. -/
theorem C6_counterexample :
    (entriesOf (str "<h3>A</h3>x<h3>y\nz</h3>w")).length / 2 = 1 ∧
    pyCount (create_schedule_html (str "<h3>A</h3>x<h3>y\nz</h3>w")) h3open = 2 := by
  refine ⟨by decide, by decide⟩

def c6Text : Chars := str "<h3>Мая, Вторник</h3>\n<br />10:00 х"

/-- Witness for C6 (amended) at a concrete one-pair tagged input. -/
theorem C6_witness :
    (1 ≤ (entriesOf c6Text).length / 2 ∧
      ∀ e ∈ entriesOf c6Text, pyCount e h3open = 0) ∧
    (pyCount (create_schedule_html c6Text) h3open = (entriesOf c6Text).length / 2 ∧
     rowsLoop [] (cardsOfEntries (entriesOf c6Text)) =
       (chunkAux [] (cardsOfEntries (entriesOf c6Text))).map rowString ∧
     (chunkAux [] (cardsOfEntries (entriesOf c6Text))).flatten =
       cardsOfEntries (entriesOf c6Text) ∧
     (∀ r ∈ chunkAux [] (cardsOfEntries (entriesOf c6Text)), r ≠ [] ∧ r.length ≤ 4) ∧
     (rowsLoop [] (cardsOfEntries (entriesOf c6Text))).length =
       ((entriesOf c6Text).length / 2 + 3) / 4) :=
  ⟨⟨by decide, by decide⟩, C6_amended_builder_shape c6Text (by decide) (by decide)⟩

/-! ## File-system model for `update_index_html` -/

/-- The target file (`index.html`): its content and modification time. -/
structure TFile where
  content : Chars
  mtime : Nat
deriving DecidableEq

/-- A backup file `index.html.backup_{timestamp}` in the `backups/` directory.
    `name` is the timestamp in the file name (second resolution, so two
    invocations in the same second produce the same name); `mtime` is the
    modification time, which `shutil.copy2` copies from the source file. -/
structure BFile where
  name : Nat
  mtime : Nat
  content : Chars
deriving DecidableEq

/-- The file-system state seen by the patcher. -/
structure FS where
  target : Option TFile
  backups : List BFile
deriving DecidableEq

/-- One constructor per `return` site of `update_index_html`;
    Python reports only the boolean `toBool` (plus a log line). -/
inductive PatchResult where
  | written | noChange | notFound | emptyFragment | markerMismatch | ioError
deriving DecidableEq

def PatchResult.toBool : PatchResult → Bool
  | .written => true
  | .noChange => true
  | _ => false

/-- Fault schedule: `true` means that primitive operation raises an exception.
    Each operation is atomic: it either completes in full or has no effect. -/
structure Faults where
  mkdirF : Bool
  listF : Bool
  copyF : Bool
  readF : Bool
  subF : Bool
  writeF : Bool
  restoreF : Bool
deriving DecidableEq

def noFaults : Faults := ⟨false, false, false, false, false, false, false⟩

/-- Stable insertion of a backup into a list sorted by ascending `mtime`. -/
def insByM (b : BFile) : List BFile → List BFile
  | [] => [b]
  | x :: xs => if b.mtime ≤ x.mtime then b :: x :: xs else x :: insByM b xs

/-- Embeds `sorted(Path(backup_dir).glob("index.html.backup_*"), key=os.path.getmtime)`:
    stable sort by ascending modification time. -/
def sortByM : List BFile → List BFile
  | [] => []
  | x :: xs => insByM x (sortByM xs)

/-- Embeds `shutil.copy2(index_path, backup_file)`: creates the backup file, or
    overwrites it (content and copied mtime) if that name already exists. -/
def putBackup (l : List BFile) (b : BFile) : List BFile :=
  if l.any (fun x => x.name == b.name) then
    l.map (fun x => if x.name = b.name then b else x)
  else l ++ [b]

/-- The `except` handler: if `backup_file` is in `locals()` and a file with
    that name exists, copy it back over the target (`copy2` also restores the
    recorded mtime); a failing restore is caught and leaves the target alone. -/
def excRestore (fs : FS) (now : Nat) (fl : Faults) : FS :=
  match fs.backups.find? (fun b => b.name == now) with
  | some b => if fl.restoreF then fs else { fs with target := some ⟨b.content, b.mtime⟩ }
  | none => fs

/-- Shallow embedding of `update_index_html(index_path, schedule_html)` at
    wall-clock second `now`.  Mirrors the source line by line:
    existence check, empty-fragment check, backup pruning (delete all but the
    newest 10 when more than 10 exist), timestamped backup creation,
    marker-count validation, non-greedy region substitution, no-op detection,
    write, and the restore-from-backup exception handler. -/
def update_index_html (fs : FS) (now : Nat) (html : Chars) (fl : Faults) :
    PatchResult × FS :=
  match fs.target with
  | none => (.notFound, fs)
  | some t =>
    if html.isEmpty || (pyStripL html).isEmpty then (.emptyFragment, fs)
    else if fl.mkdirF then (.ioError, fs)
    else if fl.listF then (.ioError, fs)
    else
      let sorted := sortByM fs.backups
      let pruned := if sorted.length > 10 then sorted.drop (sorted.length - 10) else sorted
      if fl.copyF then (.ioError, excRestore ⟨some t, pruned⟩ now fl)
      else
        let bs := putBackup pruned ⟨now, t.mtime, t.content⟩
        if fl.readF then (.ioError, excRestore ⟨some t, bs⟩ now fl)
        else if ¬ hasSub t.content marker ∨ pyCount t.content marker ≠ 2 then
          (.markerMismatch, ⟨some t, bs⟩)
        else if fl.subF then (.ioError, excRestore ⟨some t, bs⟩ now fl)
        else
          let newC := subSched html t.content
          if newC = t.content then (.noChange, ⟨some t, bs⟩)
          else if fl.writeF then (.ioError, excRestore ⟨some t, bs⟩ now fl)
          else (.written, ⟨some ⟨newC, now⟩, bs⟩)

/-- A sequence of patcher invocations (timestamp, fragment), fault-free. -/
def runPatches (fs : FS) : List (Nat × Chars) → List PatchResult × FS
  | [] => ([], fs)
  | (n, h) :: rest =>
    let r := update_index_html fs n h noFaults
    let r' := runPatches r.2 rest
    (r.1 :: r'.1, r'.2)

/-! ## Lemmas about the backup directory operations -/

theorem insByM_perm (b : BFile) (l : List BFile) : List.Perm (insByM b l) (b :: l) := by
  induction l with
  | nil => exact List.Perm.refl _
  | cons x xs ih =>
    simp only [insByM]
    by_cases h : b.mtime ≤ x.mtime
    · rw [if_pos h]
    · rw [if_neg h]
      exact (ih.cons x).trans (List.Perm.swap b x xs)

theorem sortByM_perm (l : List BFile) : List.Perm (sortByM l) l := by
  induction l with
  | nil => exact List.Perm.refl _
  | cons x xs ih =>
    exact (insByM_perm x (sortByM xs)).trans (ih.cons x)

theorem mem_of_mem_sortByM {b : BFile} {l : List BFile} (h : b ∈ sortByM l) : b ∈ l :=
  (sortByM_perm l).mem_iff.mp h

theorem putBackup_append {l : List BFile} {b : BFile}
    (h : ∀ x ∈ l, x.name ≠ b.name) : putBackup l b = l ++ [b] := by
  unfold putBackup
  rw [if_neg]
  intro hc
  simp only [List.any_eq_true, beq_iff_eq] at hc
  obtain ⟨x, hx, hn⟩ := hc
  exact h x hx hn

/-- Every fault-free invocation with an existing target and a non-blank
    fragment creates the timestamped backup before any failure can be
    reported; helper reduction used by several claims below. -/
theorem update_markerMismatch_reduce
    (tg : Option TFile) (bks : List BFile) (t : TFile) (now : Nat) (html : Chars)
    (ht : tg = some t)
    (hh : pyStripL html ≠ [])
    (hm : pyCount t.content marker ≠ 2) :
    update_index_html ⟨tg, bks⟩ now html noFaults =
      (.markerMismatch,
       ⟨some t,
        putBackup
          (if (sortByM bks).length > 10
           then (sortByM bks).drop ((sortByM bks).length - 10)
           else sortByM bks)
          ⟨now, t.mtime, t.content⟩⟩) := by
  subst ht
  have h1 : html.isEmpty = false := by
    cases html with
    | nil => exact absurd rfl hh
    | cons a l => rfl
  have h2 : (pyStripL html).isEmpty = false := by
    cases hpl : pyStripL html with
    | nil => exact absurd hpl hh
    | cons a l => rfl
  simp only [update_index_html, h1, h2, noFaults, Bool.or_self, if_false,
    Bool.false_eq_true, ite_false]
  rw [if_pos (Or.inr hm)]

/-- C2: a target whose content does not contain the marker exactly twice makes
    the patcher fail with the marker-mismatch error (`return False` from the
    marker check), and the target file is left unmodified. -/
theorem C2_marker_mismatch_fails_unmodified
    (fs : FS) (t : TFile) (now : Nat) (html : Chars)
    (ht : fs.target = some t)
    (hh : pyStripL html ≠ [])
    (hm : pyCount t.content marker ≠ 2) :
    (update_index_html fs now html noFaults).1 = .markerMismatch ∧
    (update_index_html fs now html noFaults).1.toBool = false ∧
    (update_index_html fs now html noFaults).2.target = fs.target := by
  obtain ⟨tg, bks⟩ := fs
  simp only [FS.target] at ht ⊢
  rw [update_markerMismatch_reduce tg bks t now html ht hh hm]
  exact ⟨rfl, rfl, ht.symm⟩

/-- Witness for C2 at a concrete state: content with a single marker occurrence. -/
theorem C2_witness :
    ((FS.mk (some ⟨str "a" ++ marker ++ str "b", 5⟩) []).target =
        some ⟨str "a" ++ marker ++ str "b", 5⟩ ∧
      pyStripL (str "frag") ≠ [] ∧
      pyCount (str "a" ++ marker ++ str "b") marker ≠ 2) ∧
    ((update_index_html ⟨some ⟨str "a" ++ marker ++ str "b", 5⟩, []⟩ 9 (str "frag")
          noFaults).1 = .markerMismatch ∧
      (update_index_html ⟨some ⟨str "a" ++ marker ++ str "b", 5⟩, []⟩ 9 (str "frag")
          noFaults).1.toBool = false ∧
      (update_index_html ⟨some ⟨str "a" ++ marker ++ str "b", 5⟩, []⟩ 9 (str "frag")
          noFaults).2.target = (FS.mk (some ⟨str "a" ++ marker ++ str "b", 5⟩) []).target) :=
  ⟨⟨rfl, by decide, by decide⟩,
    C2_marker_mismatch_fails_unmodified
      ⟨some ⟨str "a" ++ marker ++ str "b", 5⟩, []⟩
      ⟨str "a" ++ marker ++ str "b", 5⟩ 9 (str "frag") rfl (by decide) (by decide)⟩

/-- C10: a fault-free invocation with an existing target and a non-blank
    fragment that fails the marker-count check still mutates the backups
    directory: the pruning (keep the newest 10 when more than 10 exist) has
    happened and a fresh timestamped backup of the current target content has
    been created, even though the target itself is unchanged and the call
    reports failure. -/
theorem C10_failing_patch_mutates_backups
    (fs : FS) (t : TFile) (now : Nat) (html : Chars)
    (ht : fs.target = some t)
    (hh : pyStripL html ≠ [])
    (hm : pyCount t.content marker ≠ 2)
    (hfresh : ∀ b ∈ fs.backups, b.name ≠ now) :
    (update_index_html fs now html noFaults).1 = .markerMismatch ∧
    (update_index_html fs now html noFaults).2.target = fs.target ∧
    (update_index_html fs now html noFaults).2.backups =
      (if (sortByM fs.backups).length > 10
       then (sortByM fs.backups).drop ((sortByM fs.backups).length - 10)
       else sortByM fs.backups) ++ [⟨now, t.mtime, t.content⟩] := by
  obtain ⟨tg, bks⟩ := fs
  simp only [FS.target, FS.backups] at ht hfresh ⊢
  rw [update_markerMismatch_reduce tg bks t now html ht hh hm]
  refine ⟨rfl, ht.symm, ?_⟩
  simp only
  rw [putBackup_append]
  intro x hx
  have hx' : x ∈ sortByM bks := by
    by_cases hlen : (sortByM bks).length > 10
    · rw [if_pos hlen] at hx
      exact List.drop_subset _ _ hx
    · rwa [if_neg hlen] at hx
  exact hfresh x (mem_of_mem_sortByM hx')

/-- Concrete state for the C10 witness: twelve existing backups,
    marker-free target content. -/
def c10T : TFile := ⟨str "no markers", 0⟩

def c10FS : FS :=
  ⟨some c10T,
   [⟨1, 1, str "b"⟩, ⟨2, 2, str "b"⟩, ⟨3, 3, str "b"⟩, ⟨4, 4, str "b"⟩,
    ⟨5, 5, str "b"⟩, ⟨6, 6, str "b"⟩, ⟨7, 7, str "b"⟩, ⟨8, 8, str "b"⟩,
    ⟨9, 9, str "b"⟩, ⟨10, 10, str "b"⟩, ⟨11, 11, str "b"⟩, ⟨12, 12, str "b"⟩]⟩

/-- C1: evaluation at the failing input exhibiting the restore bug.  The
    target holds "CUR" (mtime 5); the backups directory already holds a backup
    named with timestamp 7 whose content is the stale "OLD".  A new patch runs
    in the same second 7 and the backup copy (`shutil.copy2`) raises without
    effect.  The exception handler sees `backup_file` in `locals()` and an
    existing file at that path, so it "restores" the stale backup over the
    target: the failed call returns failure yet leaves the target "OLD",
    not byte-identical to its pre-call content "CUR". -/
theorem C1_failed_patch_can_change_target :
    (update_index_html ⟨some ⟨str "CUR", 5⟩, [⟨7, 3, str "OLD"⟩]⟩ 7 (str "X")
        ⟨false, false, true, false, false, false, false⟩ =
      (.ioError, ⟨some ⟨str "OLD", 3⟩, [⟨7, 3, str "OLD"⟩]⟩)) ∧
    (update_index_html ⟨some ⟨str "CUR", 5⟩, [⟨7, 3, str "OLD"⟩]⟩ 7 (str "X")
        ⟨false, false, true, false, false, false, false⟩).1.toBool = false ∧
    (update_index_html ⟨some ⟨str "CUR", 5⟩, [⟨7, 3, str "OLD"⟩]⟩ 7 (str "X")
        ⟨false, false, true, false, false, false, false⟩).2.target ≠
      some ⟨str "CUR", 5⟩ := by
  refine ⟨by decide, by decide, by decide⟩

/-- Target content for the 12-patch retention scenario (C3):
    a document containing the marker exactly twice. -/
def c3Target : Chars := str "A" ++ marker ++ str "B" ++ marker ++ str "C"

/-- Twelve sequential patches at strictly increasing timestamps, each with a
    fresh non-blank fragment (so each one rewrites the target). -/
def c3Steps : List (Nat × Chars) :=
  [(1, str "Xa"), (2, str "Xb"), (3, str "Xc"), (4, str "Xd"),
   (5, str "Xe"), (6, str "Xf"), (7, str "Xg"), (8, str "Xh"),
   (9, str "Xi"), (10, str "Xj"), (11, str "Xk"), (12, str "Xl")]

def c3Run : List PatchResult × FS := runPatches ⟨some ⟨c3Target, 0⟩, []⟩ c3Steps

/-- C3 counterexample: starting from an empty backup directory, 12 sequential
    successful patches leave 11 backup files, not 10: the pruning step only
    fires when more than 10 backups already exist and keeps the newest 10
    before inserting the new one. -/
theorem C3_counterexample :
    c3Run.1.all PatchResult.toBool = true ∧
    c3Run.2.backups.length = 11 ∧
    c3Run.2.backups.length ≠ 10 := by
  refine ⟨by decide, by decide, by decide⟩

/-- C3 (amended): after 12 sequential successful patches against the same
    target starting from an empty backup directory, exactly 11 backup files
    remain, and they are the 11 most recent by creation order (timestamps
    2 through 12; the backup from the first patch was pruned). -/
theorem C3_amended_retention :
    c3Run.1.all PatchResult.toBool = true ∧
    c3Run.1.length = 12 ∧
    c3Run.2.backups.length = 11 ∧
    c3Run.2.backups.map BFile.name = [2, 3, 4, 5, 6, 7, 8, 9, 10, 11, 12] := by
  refine ⟨by decide, by decide, by decide, by decide⟩

/-- Witness for C10 at the concrete state `c10FS`. -/
theorem C10_witness :
    (c10FS.target = some c10T ∧
     pyStripL (str "x") ≠ [] ∧
     pyCount c10T.content marker ≠ 2 ∧
     (∀ b ∈ c10FS.backups, b.name ≠ 99)) ∧
    ((update_index_html c10FS 99 (str "x") noFaults).1 = .markerMismatch ∧
     (update_index_html c10FS 99 (str "x") noFaults).2.target = c10FS.target ∧
     (update_index_html c10FS 99 (str "x") noFaults).2.backups =
       (if (sortByM c10FS.backups).length > 10
        then (sortByM c10FS.backups).drop ((sortByM c10FS.backups).length - 10)
        else sortByM c10FS.backups) ++ [⟨99, c10T.mtime, c10T.content⟩]) :=
  ⟨⟨rfl, by decide, by decide, by decide⟩,
    C10_failing_patch_mutates_backups c10FS c10T 99 (str "x") rfl
      (by decide) (by decide) (by decide)⟩

end Brest
